import Mathlib

/-!
Verification of the `colmac` collection-macro library (`src/lib.rs`).

The library exposes seven Rust macros: `count_args!`, `string!`, `hashmap!`,
`hashset!`, `sort!`, `sorted!` and `sorted_f64!`.  Each macro expands to a
straight-line program over `std` collections; we embed those expansions
shallowly:

* `count_args!` becomes a structurally recursive function on the list of
  arguments, one equation per macro arm.
* `HashMap` / `HashSet` become association/element lists packaged with the
  capacity bookkeeping that `with_capacity` and `insert` perform: `cap` is
  the reserved capacity and `reallocs` counts the resizes `insert` triggers
  when a genuinely new key is stored into a full table (Rust resizes only in
  that case; replacing the value of a present key never reallocates).
* `slice::sort_unstable` / `sort_unstable_by` are modelled by the
  deterministic comparison sort `List.insertionSort`, which satisfies their
  documented contract (the output is a sorted permutation of the input); the
  two-argument mode orders by `cmp a b ≠ Ordering.gt`, which is how a
  three-way `Ordering` comparator induces a "less or equal" relation.
* `sorted!` clones the source into a fresh vector and sorts the clone; the
  allocation aspect is modelled by a store of vectors addressed by index,
  where the fresh vector gets a fresh index.
* `sorted_f64!` passes the closure `fun a b => (a.partial_cmp b).unwrap()`;
  `unwrap` panics when the comparison is incomparable (NaN), so the sort is
  re-run in the `Option` monad with a fallible comparator, `none` standing
  for the propagated panic.
-/

namespace Colmac

/-- `count_args!`: one equation per macro arm — zero arguments give `0usize`,
a single argument gives `1usize`, and two or more give `1usize` plus the
count of the rest. -/
def count_args {α : Type u} : List α → Nat
  | [] => 0
  | [_] => 1
  | _ :: b :: t => 1 + count_args (b :: t)

/-! ### HashMap model -/

/-- Effect of `HashMap::insert` on the entry list: if the key is present its
value is updated in place (the stored key is kept), otherwise the new entry
is appended. -/
def insertEntry {K : Type u} {V : Type v} [DecidableEq K] :
    List (K × V) → K → V → List (K × V)
  | [], k, v => [(k, v)]
  | (k', v') :: rest, k, v =>
      if k' = k then (k', v) :: rest else (k', v') :: insertEntry rest k v

/-- `std::collections::HashMap`, modelled as its entry list together with the
capacity bookkeeping relevant to the `with_capacity` contract: `cap` is the
reserved capacity and `reallocs` counts how many resizes `insert` performed. -/
structure HMap (K : Type u) (V : Type v) where
  entries : List (K × V)
  cap : Nat
  reallocs : Nat

/-- `HashMap::new()`: empty, no reserved capacity. -/
def HMap.new {K : Type u} {V : Type v} : HMap K V := ⟨[], 0, 0⟩

/-- `HashMap::with_capacity(n)`: empty, capacity `n` reserved. -/
def HMap.with_capacity {K : Type u} {V : Type v} (n : Nat) : HMap K V := ⟨[], n, 0⟩

/-- `HashMap::insert(k, v)`: the entry list is updated by `insertEntry`; a
resize happens exactly when a new key is stored while the table is full. -/
def HMap.insert {K : Type u} {V : Type v} [DecidableEq K]
    (m : HMap K V) (k : K) (v : V) : HMap K V :=
  if k ∈ m.entries.map Prod.fst then { m with entries := insertEntry m.entries k v }
  else if m.entries.length + 1 ≤ m.cap then
    { m with entries := insertEntry m.entries k v }
  else { entries := insertEntry m.entries k v,
         cap := max (2 * m.cap) (m.entries.length + 1),
         reallocs := m.reallocs + 1 }

/-- `HashMap::get`, on the entry list. -/
def lookupEntries {K : Type u} {V : Type v} [DecidableEq K]
    (l : List (K × V)) (k : K) : Option V :=
  (l.find? fun e => decide (e.1 = k)).map Prod.snd

/-- `HashMap::get` on the model. -/
def HMap.lookup {K : Type u} {V : Type v} [DecidableEq K]
    (m : HMap K V) (k : K) : Option V :=
  lookupEntries m.entries k

/-- The `hashmap![]` arm: expands to `HashMap::new()`. -/
def hashmapNil {K : Type u} {V : Type v} : HMap K V := HMap.new

/-- The `hashmap![k => v, ...]` arm: `count_args!` over the keys gives the
size, `with_capacity(size)` reserves it, then each pair is inserted in the
order given. -/
def hashmap {K : Type u} {V : Type v} [DecidableEq K] (ps : List (K × V)) : HMap K V :=
  let size := count_args (ps.map Prod.fst)
  ps.foldl (fun m p => m.insert p.1 p.2) (HMap.with_capacity size)

/-! ### HashSet model -/

/-- `std::collections::HashSet`, modelled like `HMap`: the element list plus
capacity bookkeeping. -/
structure HSet (T : Type u) where
  elems : List T
  cap : Nat
  reallocs : Nat

/-- `HashSet::new()`. -/
def HSet.new {T : Type u} : HSet T := ⟨[], 0, 0⟩

/-- `HashSet::with_capacity(n)`. -/
def HSet.with_capacity {T : Type u} (n : Nat) : HSet T := ⟨[], n, 0⟩

/-- `HashSet::insert(x)`: a present element leaves the set untouched; a new
element is appended, resizing exactly when the table is full. -/
def HSet.insert {T : Type u} [DecidableEq T] (s : HSet T) (x : T) : HSet T :=
  if x ∈ s.elems then s
  else if s.elems.length + 1 ≤ s.cap then { s with elems := s.elems ++ [x] }
  else { elems := s.elems ++ [x], cap := max (2 * s.cap) (s.elems.length + 1),
         reallocs := s.reallocs + 1 }

/-- The `hashset![]` arm: expands to `HashSet::new()`. -/
def hashsetNil {T : Type u} : HSet T := HSet.new

/-- The `hashset![x, ...]` arm: `count_args!` gives the size,
`with_capacity(size)` reserves it, then each element is inserted in order. -/
def hashset {T : Type u} [DecidableEq T] (l : List T) : HSet T :=
  l.foldl (fun s x => s.insert x) (HSet.with_capacity (count_args l))

/-- Reference semantics from the spec, for comparison with `hashmap`: start
from an empty map and insert each pair in the order given. -/
def insertList {K : Type u} {V : Type v} [DecidableEq K] (ps : List (K × V)) :
    List (K × V) :=
  ps.foldl (fun e p => insertEntry e p.1 p.2) []

/-- The spec's last-write-wins reading of a key/value literal: the value of
the last pair carrying the given key, if any. -/
def lastWins {K : Type u} {V : Type v} [DecidableEq K]
    (ps : List (K × V)) (k : K) : Option V :=
  (ps.reverse.find? fun p => decide (p.1 = k)).map Prod.snd

/-! ### sort! and sorted! -/

/-- The "less or equal" relation a three-way comparator induces: `a` may be
placed before `b` precisely when the comparator does not say `a` is greater. -/
def cmpLE {α : Type u} (cmp : α → α → Ordering) (a b : α) : Prop :=
  cmp a b ≠ Ordering.gt

instance cmpLE.decidableRel {α : Type u} (cmp : α → α → Ordering) :
    DecidableRel (cmpLE cmp) :=
  fun a b => inferInstanceAs (Decidable (cmp a b ≠ Ordering.gt))

/-- `sort!(v)`: `(&mut v[..]).sort_unstable()` — sorts the buffer in place by
the natural order and returns `()`.  Modelled as a state transformer: the
result pairs the new buffer contents with the unit return value. -/
def sortBang {α : Type u} [LinearOrder α] (v : List α) : List α × Unit :=
  (List.insertionSort (fun a b => a ≤ b) v, ())

/-- `sort!(v, cmp)`: `(&mut v[..]).sort_unstable_by(cmp)` — sorts in place by
the comparator's ordering and returns `()`. -/
def sortByBang {α : Type u} (cmp : α → α → Ordering) (v : List α) : List α × Unit :=
  (List.insertionSort (cmpLE cmp) v, ())

/-- `sorted!(c)`: clone every element of `c` into a fresh vector, `sort!` the
clone, and return it. -/
def sortedBang {α : Type u} [LinearOrder α] (c : List α) : List α :=
  let clones := c
  (sortBang clones).1

/-- `sorted!(c, cmp)`: same, sorting the clone with the comparator. -/
def sortedByBang {α : Type u} (cmp : α → α → Ordering) (c : List α) : List α :=
  let clones := c
  (sortByBang cmp clones).1

/-- Allocation model for `sorted!`: the store is the list of live vectors,
addressed by index.  `sorted!(store[i])` collects the clones into a freshly
allocated vector (a fresh index at the end of the store), sorts the clone in
place and returns its address; every previously allocated vector, the source
included, is untouched. -/
def sortedOnStore {α : Type u} [LinearOrder α] (store : List (List α)) (i : Nat) :
    List (List α) × Nat :=
  (store ++ [sortedBang (store.getD i [])], store.length)

/-! ### sorted_f64! -/

/-- An `f64` value is either an ordinary (finite, comparable) number — the
finite doubles embed exactly into the rationals — or the incomparable NaN. -/
inductive F64 : Type where
  | num (q : ℚ)
  | nan
deriving DecidableEq

/-- Three-way comparison of rationals, the total order on the numeric
doubles. -/
def rcompare (a b : ℚ) : Ordering :=
  if a < b then Ordering.lt else if a = b then Ordering.eq else Ordering.gt

/-- `f64::partial_cmp`: `Some` of the three-way comparison on ordinary
numbers, `None` as soon as either side is NaN. -/
def pcmp : F64 → F64 → Option Ordering
  | .num a, .num b => some (rcompare a b)
  | _, _ => none

/-- The comparator `sorted_f64!` builds: `a.partial_cmp(b).unwrap()`, turned
into the induced "less or equal" test.  `unwrap` panics on `None`, so the
result lives in `Option`: `none` is the propagated panic. -/
def leF64 (a b : F64) : Option Bool :=
  (pcmp a b).map fun o => decide (o ≠ Ordering.gt)

/-- A run of `orderedInsert` whose comparisons may fail: the first failing
comparison aborts the whole computation, exactly as a panicking comparator
aborts `sort_unstable_by`. -/
def orderedInsertF {α : Type u} (le : α → α → Option Bool) (a : α) :
    List α → Option (List α)
  | [] => some [a]
  | b :: l =>
    match le a b with
    | none => none
    | some true => some (a :: b :: l)
    | some false => (orderedInsertF le a l).map fun t => b :: t

/-- The sort model of 4.5 re-run in the `Option` monad, for comparators that
may fail. -/
def insertionSortF {α : Type u} (le : α → α → Option Bool) :
    List α → Option (List α)
  | [] => some []
  | b :: l => (insertionSortF le l).bind (orderedInsertF le b)

/-- `sorted_f64!(c)`: `sorted!(c, |a, b| a.partial_cmp(b).unwrap())` — clone,
then sort the clone with the fallible comparator; `none` is the panic the
first NaN comparison raises. -/
def sorted_f64 (c : List F64) : Option (List F64) :=
  let clones := c
  insertionSortF leF64 clones

/-- The total order on `F64` that the numeric comparator realizes on NaN-free
data (NaN is placed below every number so that the order is total on all of
`F64`; `sorted_f64!` only ever sorts NaN-free lists successfully). -/
def F64.le : F64 → F64 → Prop
  | .nan, _ => True
  | .num _, .nan => False
  | .num a, .num b => a ≤ b

instance F64.le.decidableRel : DecidableRel F64.le := fun a b =>
  match a, b with
  | .nan, _ => isTrue trivial
  | .num _, .nan => isFalse fun h => h
  | .num x, .num y => inferInstanceAs (Decidable (x ≤ y))

instance : IsTotal F64 F64.le where
  total a b :=
    match a, b with
    | .nan, _ => Or.inl trivial
    | .num _, .nan => Or.inr trivial
    | .num x, .num y => le_total x y

instance : IsTrans F64 F64.le where
  trans a b c hab hbc := by
    cases a <;> cases b <;> cases c <;> simp_all [F64.le]
    exact le_trans hab hbc

/-! ## Theorems -/

/-! ### Helper lemmas on the map model -/

theorem HMap.insert_entries {K : Type u} {V : Type v} [DecidableEq K]
    (m : HMap K V) (k : K) (v : V) :
    (m.insert k v).entries = insertEntry m.entries k v := by
  unfold HMap.insert
  split
  · rfl
  · split <;> rfl

theorem foldl_insert_entries {K : Type u} {V : Type v} [DecidableEq K] :
    ∀ (ps : List (K × V)) (m : HMap K V),
      (ps.foldl (fun m p => m.insert p.1 p.2) m).entries
        = ps.foldl (fun e p => insertEntry e p.1 p.2) m.entries
  | [], _ => rfl
  | p :: ps, m => by
    rw [List.foldl_cons, List.foldl_cons, foldl_insert_entries ps,
      HMap.insert_entries]

theorem lookupEntries_insertEntry {K : Type u} {V : Type v} [DecidableEq K] :
    ∀ (l : List (K × V)) (k k' : K) (v : V),
      lookupEntries (insertEntry l k v) k'
        = if k = k' then some v else lookupEntries l k'
  | [], k, k', v => by
    by_cases h : k = k' <;> simp [insertEntry, lookupEntries, List.find?, h]
  | (a, b) :: t, k, k', v => by
    by_cases hak : a = k
    · subst hak
      by_cases hk' : a = k' <;>
        simp [insertEntry, lookupEntries, List.find?, hk']
    · by_cases hk' : a = k'
      · subst hk'
        have hka : ¬ k = a := fun h => hak h.symm
        simp [insertEntry, lookupEntries, List.find?, hak, hka]
      · simpa [insertEntry, lookupEntries, List.find?, hak, hk']
          using lookupEntries_insertEntry t k k' v

theorem lastWins_cons {K : Type u} {V : Type v} [DecidableEq K]
    (p : K × V) (ps : List (K × V)) (k : K) :
    lastWins (p :: ps) k
      = (lastWins ps k).or (if p.1 = k then some p.2 else none) := by
  unfold lastWins
  rw [List.reverse_cons, List.find?_append]
  cases hf : ps.reverse.find? fun q => decide (q.1 = k) with
  | some q => simp [Option.or]
  | none =>
    by_cases h : p.1 = k <;> simp [List.find?, h, Option.or]

theorem lookupEntries_foldl {K : Type u} {V : Type v} [DecidableEq K] :
    ∀ (ps : List (K × V)) (acc : List (K × V)) (k : K),
      lookupEntries (ps.foldl (fun e p => insertEntry e p.1 p.2) acc) k
        = (lastWins ps k).or (lookupEntries acc k)
  | [], acc, k => by simp [lastWins, List.find?]
  | p :: ps, acc, k => by
    rw [List.foldl_cons, lookupEntries_foldl ps, lastWins_cons, Option.or_assoc]
    congr 1
    rw [lookupEntries_insertEntry]
    by_cases h : p.1 = k <;> simp [h, Option.or]

/-! ### Helper lemmas on the set model -/

theorem HSet.insert_elems {T : Type u} [DecidableEq T] (s : HSet T) (x : T) :
    (s.insert x).elems = if x ∈ s.elems then s.elems else s.elems ++ [x] := by
  unfold HSet.insert
  split
  · rfl
  · split <;> rfl

theorem HSet.mem_insert_elems {T : Type u} [DecidableEq T] (s : HSet T) (y x : T) :
    x ∈ (s.insert y).elems ↔ x ∈ s.elems ∨ x = y := by
  rw [HSet.insert_elems]
  by_cases h : y ∈ s.elems
  · rw [if_pos h]
    exact ⟨Or.inl, fun hx => hx.elim id fun hxy => hxy ▸ h⟩
  · rw [if_neg h]
    simp

theorem HSet.insert_nodup {T : Type u} [DecidableEq T] (s : HSet T) (y : T)
    (h : s.elems.Nodup) : (s.insert y).elems.Nodup := by
  rw [HSet.insert_elems]
  by_cases hy : y ∈ s.elems
  · rwa [if_pos hy]
  · rw [if_neg hy]
    simp [List.nodup_append, h, hy]

theorem mem_foldl_insertHS {T : Type u} [DecidableEq T] :
    ∀ (l : List T) (s : HSet T) (x : T),
      x ∈ (l.foldl (fun s y => s.insert y) s).elems ↔ x ∈ s.elems ∨ x ∈ l
  | [], s, x => by simp
  | y :: l, s, x => by
    rw [List.foldl_cons, mem_foldl_insertHS l, HSet.mem_insert_elems]
    simp only [List.mem_cons]
    tauto

theorem nodup_foldl_insertHS {T : Type u} [DecidableEq T] :
    ∀ (l : List T) (s : HSet T), s.elems.Nodup →
      (l.foldl (fun s y => s.insert y) s).elems.Nodup
  | [], _, h => h
  | y :: l, s, h => by
    rw [List.foldl_cons]
    exact nodup_foldl_insertHS l _ (HSet.insert_nodup s y h)

/-! ### Length and capacity lemmas -/

theorem count_args_eq_length {α : Type u} : ∀ (l : List α), count_args l = l.length
  | [] => rfl
  | [_] => rfl
  | x :: y :: ys => by
    show 1 + count_args (y :: ys) = (x :: y :: ys).length
    rw [count_args_eq_length (y :: ys)]
    simp [Nat.add_comm]

theorem length_insertEntry {K : Type u} {V : Type v} [DecidableEq K] :
    ∀ (l : List (K × V)) (k : K) (v : V),
      (insertEntry l k v).length
        = if k ∈ l.map Prod.fst then l.length else l.length + 1
  | [], k, v => by simp [insertEntry]
  | (a, b) :: t, k, v => by
    by_cases h : a = k
    · subst h
      simp [insertEntry]
    · have h' : ¬ k = a := fun he => h he.symm
      simp only [insertEntry, if_neg h, List.length_cons, List.map_cons,
        List.mem_cons, h', false_or, length_insertEntry t]
      split <;> omega

theorem keys_insertEntry {K : Type u} {V : Type v} [DecidableEq K] :
    ∀ (l : List (K × V)) (k : K) (v : V),
      (insertEntry l k v).map Prod.fst
        = if k ∈ l.map Prod.fst then l.map Prod.fst else l.map Prod.fst ++ [k]
  | [], k, v => by simp [insertEntry]
  | (a, b) :: t, k, v => by
    by_cases h : a = k
    · subst h
      simp [insertEntry]
    · have h' : ¬ k = a := fun he => h he.symm
      simp only [insertEntry, if_neg h, List.map_cons, List.mem_cons, h',
        false_or, keys_insertEntry t]
      split <;> simp

theorem length_foldl_insertEntry {K : Type u} {V : Type v} [DecidableEq K] :
    ∀ (ps : List (K × V)) (acc : List (K × V)),
      (ps.foldl (fun e p => insertEntry e p.1 p.2) acc).length
          ≤ acc.length + ps.length
      ∧ ((ps.foldl (fun e p => insertEntry e p.1 p.2) acc).length
            = acc.length + ps.length
          ↔ (ps.map Prod.fst).Nodup
            ∧ ∀ k ∈ ps.map Prod.fst, k ∉ acc.map Prod.fst)
  | [], acc => by simp
  | p :: ps, acc => by
    rw [List.foldl_cons]
    obtain ⟨ih_le, ih_iff⟩ := length_foldl_insertEntry ps (insertEntry acc p.1 p.2)
    by_cases h : p.1 ∈ acc.map Prod.fst
    · have hlen : (insertEntry acc p.1 p.2).length = acc.length := by
        rw [length_insertEntry, if_pos h]
      rw [hlen] at ih_le ih_iff
      constructor
      · simp only [List.length_cons]
        omega
      · apply iff_of_false
        · simp only [List.length_cons]
          omega
        · rintro ⟨-, hdisj⟩
          exact hdisj p.1 (by simp) h
    · have hlen : (insertEntry acc p.1 p.2).length = acc.length + 1 := by
        rw [length_insertEntry, if_neg h]
      have hkeys : (insertEntry acc p.1 p.2).map Prod.fst
          = acc.map Prod.fst ++ [p.1] := by
        rw [keys_insertEntry, if_neg h]
      rw [hlen] at ih_le ih_iff
      rw [hkeys] at ih_iff
      constructor
      · simp only [List.length_cons]
        omega
      · rw [show acc.length + (p :: ps).length = acc.length + 1 + ps.length by
          simp only [List.length_cons]; omega]
        rw [ih_iff]
        constructor
        · rintro ⟨hnd, hdisj⟩
          have hp1 : p.1 ∉ List.map Prod.fst ps := fun hp =>
            hdisj p.1 hp (List.mem_append_right _ (List.mem_singleton.mpr rfl))
          refine ⟨by rw [List.map_cons]; exact List.nodup_cons.mpr ⟨hp1, hnd⟩,
            fun k hk => ?_⟩
          rw [List.map_cons] at hk
          rcases List.mem_cons.mp hk with rfl | hk'
          · exact h
          · exact fun hmem => hdisj k hk' (List.mem_append_left _ hmem)
        · rintro ⟨hnd, hdisj⟩
          rw [List.map_cons, List.nodup_cons] at hnd
          refine ⟨hnd.2, fun k hk hmem => ?_⟩
          rcases List.mem_append.mp hmem with hacc | hp
          · exact hdisj k (by rw [List.map_cons]; exact List.mem_cons_of_mem _ hk) hacc
          · exact hnd.1 (by rwa [List.mem_singleton.mp hp] at hk)

theorem length_foldl_insertHS {T : Type u} [DecidableEq T] :
    ∀ (l : List T) (s : HSet T),
      (l.foldl (fun s y => s.insert y) s).elems.length ≤ s.elems.length + l.length
      ∧ ((l.foldl (fun s y => s.insert y) s).elems.length
            = s.elems.length + l.length
          ↔ l.Nodup ∧ ∀ x ∈ l, x ∉ s.elems)
  | [], s => by simp
  | y :: l, s => by
    rw [List.foldl_cons]
    obtain ⟨ih_le, ih_iff⟩ := length_foldl_insertHS l (s.insert y)
    by_cases h : y ∈ s.elems
    · have hlen : (s.insert y).elems.length = s.elems.length := by
        rw [HSet.insert_elems, if_pos h]
      rw [hlen] at ih_le ih_iff
      constructor
      · simp only [List.length_cons]
        omega
      · apply iff_of_false
        · simp only [List.length_cons]
          omega
        · rintro ⟨-, hdisj⟩
          exact hdisj y (by simp) h
    · have hlen : (s.insert y).elems.length = s.elems.length + 1 := by
        rw [HSet.insert_elems, if_neg h]
        simp
      have helems : (s.insert y).elems = s.elems ++ [y] := by
        rw [HSet.insert_elems, if_neg h]
      rw [hlen] at ih_le ih_iff
      rw [helems] at ih_iff
      constructor
      · simp only [List.length_cons]
        omega
      · rw [show s.elems.length + (y :: l).length = s.elems.length + 1 + l.length by
          simp only [List.length_cons]; omega]
        rw [ih_iff]
        simp only [List.nodup_cons, List.mem_append, List.mem_singleton,
          not_or, List.forall_mem_cons]
        constructor
        · rintro ⟨hnd, hdisj⟩
          refine ⟨⟨fun hy => (hdisj y hy).2 rfl, hnd⟩, ⟨h, ?_⟩⟩
          exact fun x hx => (hdisj x hx).1
        · rintro ⟨⟨hy, hnd⟩, -, hdisj⟩
          exact ⟨hnd, fun x hx => ⟨hdisj x hx, fun he => hy (he ▸ hx)⟩⟩

theorem hmap_insert_cap_realloc {K : Type u} {V : Type v} [DecidableEq K]
    (m : HMap K V) (k : K) (v : V) (h : m.entries.length + 1 ≤ m.cap) :
    (m.insert k v).cap = m.cap ∧ (m.insert k v).reallocs = m.reallocs := by
  by_cases hk : k ∈ m.entries.map Prod.fst
  · simp [HMap.insert, hk]
  · simp [HMap.insert, hk, h]

theorem foldl_insert_no_realloc {K : Type u} {V : Type v} [DecidableEq K] :
    ∀ (ps : List (K × V)) (m : HMap K V),
      m.entries.length + ps.length ≤ m.cap →
      (ps.foldl (fun m p => m.insert p.1 p.2) m).cap = m.cap
      ∧ (ps.foldl (fun m p => m.insert p.1 p.2) m).reallocs = m.reallocs
  | [], _, _ => ⟨rfl, rfl⟩
  | p :: ps, m, h => by
    rw [List.foldl_cons]
    simp only [List.length_cons] at h
    have h1 : m.entries.length + 1 ≤ m.cap := by omega
    obtain ⟨hc, hr⟩ := hmap_insert_cap_realloc m p.1 p.2 h1
    have hlen : (m.insert p.1 p.2).entries.length ≤ m.entries.length + 1 := by
      rw [HMap.insert_entries, length_insertEntry]
      split <;> omega
    obtain ⟨hc', hr'⟩ := foldl_insert_no_realloc ps (m.insert p.1 p.2)
      (by rw [hc]; omega)
    exact ⟨hc'.trans hc, hr'.trans hr⟩

theorem hset_insert_cap_realloc {T : Type u} [DecidableEq T]
    (s : HSet T) (x : T) (h : s.elems.length + 1 ≤ s.cap) :
    (s.insert x).cap = s.cap ∧ (s.insert x).reallocs = s.reallocs := by
  by_cases hx : x ∈ s.elems
  · simp [HSet.insert, hx]
  · simp [HSet.insert, hx, h]

theorem foldl_insertHS_no_realloc {T : Type u} [DecidableEq T] :
    ∀ (l : List T) (s : HSet T),
      s.elems.length + l.length ≤ s.cap →
      (l.foldl (fun s y => s.insert y) s).cap = s.cap
      ∧ (l.foldl (fun s y => s.insert y) s).reallocs = s.reallocs
  | [], _, _ => ⟨rfl, rfl⟩
  | y :: l, s, h => by
    rw [List.foldl_cons]
    simp only [List.length_cons] at h
    have h1 : s.elems.length + 1 ≤ s.cap := by omega
    obtain ⟨hc, hr⟩ := hset_insert_cap_realloc s y h1
    have hlen : (s.insert y).elems.length ≤ s.elems.length + 1 := by
      rw [HSet.insert_elems]
      split <;> simp
    obtain ⟨hc', hr'⟩ := foldl_insertHS_no_realloc l (s.insert y)
      (by rw [hc]; omega)
    exact ⟨hc'.trans hc, hr'.trans hr⟩

/-! ### Helper lemmas on the fallible sort -/

theorem leF64_nan_left (y : F64) : leF64 F64.nan y = none := by
  cases y <;> rfl

theorem leF64_nan_right (x : F64) : leF64 x F64.nan = none := by
  cases x <;> rfl

theorem orderedInsertF_perm {α : Type u} (le : α → α → Option Bool) (a : α) :
    ∀ (l t : List α), orderedInsertF le a l = some t → t.Perm (a :: l)
  | [], t, h => by
    rw [orderedInsertF] at h
    cases h
    exact List.Perm.refl _
  | b :: l, t, h => by
    rw [orderedInsertF] at h
    cases hle : le a b with
    | none =>
      simp only [hle] at h
      cases h
    | some c =>
      cases c with
      | true =>
        simp only [hle] at h
        cases h
        exact List.Perm.refl _
      | false =>
        simp only [hle] at h
        cases ht : orderedInsertF le a l with
        | none => rw [ht] at h; simp at h
        | some u =>
          rw [ht] at h
          simp only [Option.map_some'] at h
          cases h
          exact ((orderedInsertF_perm le a l u ht).cons b).trans
            (List.Perm.swap a b l)

theorem insertionSortF_perm {α : Type u} (le : α → α → Option Bool) :
    ∀ (l s : List α), insertionSortF le l = some s → s.Perm l
  | [], s, h => by
    rw [insertionSortF] at h
    cases h
    exact List.Perm.refl _
  | b :: l, s, h => by
    rw [insertionSortF] at h
    cases ht : insertionSortF le l with
    | none => rw [ht] at h; simp at h
    | some t =>
      rw [ht] at h
      exact (orderedInsertF_perm le b t s h).trans
        ((insertionSortF_perm le l t ht).cons b)

theorem orderedInsertF_nan_inv {x : F64} :
    ∀ {ys t : List F64}, (F64.nan ∈ ys → ys = [F64.nan]) →
      orderedInsertF leF64 x ys = some t → F64.nan ∈ t → t = [F64.nan]
  | [], t, _, h, hmem => by
    rw [orderedInsertF] at h
    cases h
    cases List.mem_singleton.mp hmem
    rfl
  | y :: ys', t, hys, h, hmem => by
    by_cases hn : F64.nan ∈ y :: ys'
    · rw [hys hn, orderedInsertF, leF64_nan_right] at h
      simp at h
    · have hx : x ≠ F64.nan := by
        intro hx
        subst hx
        rw [orderedInsertF, leF64_nan_left] at h
        simp at h
      have hperm := orderedInsertF_perm leF64 x (y :: ys') t h
      rcases List.mem_cons.mp (hperm.mem_iff.mp hmem) with he | hm
      · exact absurd he.symm hx
      · exact absurd hm hn

theorem insertionSortF_nan_inv :
    ∀ {l s : List F64}, insertionSortF leF64 l = some s →
      F64.nan ∈ s → s = [F64.nan]
  | [], s, h, hmem => by
    rw [insertionSortF] at h
    cases h
    exact absurd hmem (List.not_mem_nil _)
  | b :: l, s, h, hmem => by
    rw [insertionSortF] at h
    cases ht : insertionSortF leF64 l with
    | none => rw [ht] at h; simp at h
    | some t =>
      rw [ht] at h
      exact orderedInsertF_nan_inv (insertionSortF_nan_inv ht) h hmem

theorem insertionSortF_nan_none :
    ∀ (l : List F64), F64.nan ∈ l → 2 ≤ l.length →
      insertionSortF leF64 l = none
  | [], hmem, _ => absurd hmem (List.not_mem_nil _)
  | x :: xs, hmem, hlen => by
    rw [insertionSortF]
    cases ht : insertionSortF leF64 xs with
    | none => rfl
    | some t =>
      have hxs : xs ≠ [] := by
        intro he
        subst he
        simp at hlen
      have htperm := insertionSortF_perm leF64 xs t ht
      obtain ⟨y, t', rfl⟩ : ∃ y t', t = y :: t' := by
        cases t with
        | nil => exact absurd (htperm.symm.eq_nil) hxs
        | cons y t' => exact ⟨y, t', rfl⟩
      show orderedInsertF leF64 x (y :: t') = none
      by_cases hx : x = F64.nan
      · subst hx
        rw [orderedInsertF, leF64_nan_left]
      · have hnx : F64.nan ∈ xs := by
          rcases List.mem_cons.mp hmem with he | hm
          · exact absurd he.symm hx
          · exact hm
        have hnt : F64.nan ∈ y :: t' := htperm.mem_iff.mpr hnx
        rw [insertionSortF_nan_inv ht hnt, orderedInsertF, leF64_nan_right]

theorem rcompare_ne_gt {a c : ℚ} :
    (rcompare a c ≠ Ordering.gt) ↔ a ≤ c := by
  unfold rcompare
  split_ifs with h1 h2
  · simp [le_of_lt h1]
  · simp [le_of_eq h2]
  · have hca : c < a := lt_of_le_of_ne (le_of_not_lt h1) fun he => h2 he.symm
    simp [not_le.mpr hca]

theorem leF64_num (a c : ℚ) :
    leF64 (F64.num a) (F64.num c) = some (decide (a ≤ c)) := by
  show some (decide (rcompare a c ≠ Ordering.gt)) = some (decide (a ≤ c))
  simp only [Option.some.injEq, decide_eq_decide]
  exact rcompare_ne_gt

theorem orderedInsertF_eq_orderedInsert {a : ℚ} :
    ∀ (ys : List F64), (∀ y ∈ ys, y ≠ F64.nan) →
      orderedInsertF leF64 (F64.num a) ys
        = some (List.orderedInsert F64.le (F64.num a) ys)
  | [], _ => rfl
  | y :: ys, hys => by
    obtain ⟨c, rfl⟩ : ∃ c, y = F64.num c := by
      cases y with
      | num c => exact ⟨c, rfl⟩
      | nan => exact absurd rfl (hys F64.nan (List.mem_cons_self _ _))
    rw [orderedInsertF, leF64_num]
    by_cases hle : a ≤ c
    · rw [decide_eq_true hle,
        List.orderedInsert, if_pos (show F64.le (F64.num a) (F64.num c) from hle)]
    · rw [decide_eq_false hle,
        orderedInsertF_eq_orderedInsert ys fun z hz => hys z (List.mem_cons_of_mem _ hz),
        List.orderedInsert,
        if_neg (show ¬ F64.le (F64.num a) (F64.num c) from hle)]
      rfl

theorem insertionSortF_eq_insertionSort :
    ∀ (l : List F64), (∀ y ∈ l, y ≠ F64.nan) →
      insertionSortF leF64 l = some (List.insertionSort F64.le l)
  | [], _ => rfl
  | x :: xs, hl => by
    obtain ⟨a, rfl⟩ : ∃ a, x = F64.num a := by
      cases x with
      | num a => exact ⟨a, rfl⟩
      | nan => exact absurd rfl (hl F64.nan (List.mem_cons_self _ _))
    rw [insertionSortF,
      insertionSortF_eq_insertionSort xs fun z hz => hl z (List.mem_cons_of_mem _ hz)]
    have hmem : ∀ z ∈ List.insertionSort F64.le xs, z ≠ F64.nan := fun z hz =>
      hl z (List.mem_cons_of_mem _ ((List.perm_insertionSort F64.le xs).mem_iff.mp hz))
    show orderedInsertF leF64 (F64.num a) (List.insertionSort F64.le xs)
        = some (List.insertionSort F64.le (F64.num a :: xs))
    rw [orderedInsertF_eq_orderedInsert _ hmem, List.insertionSort]

/-- C3: for every list of `n ≥ 0` argument expressions, `count_args!` returns
exactly `n`; zero arguments yield `0`, one argument yields `1`, and for more
arguments the result is `1` plus the count of the remaining arguments. -/
theorem count_args_exact {α : Type u} (args : List α) (a b : α) (t : List α) :
    count_args args = args.length
    ∧ count_args ([] : List α) = 0
    ∧ count_args [a] = 1
    ∧ count_args (a :: b :: t) = 1 + count_args (b :: t) := by
  refine ⟨?_, rfl, rfl, rfl⟩
  induction args with
  | nil => rfl
  | cons x xs ih =>
    cases xs with
    | nil => rfl
    | cons y ys =>
      show 1 + count_args (y :: ys) = (x :: y :: ys).length
      rw [ih]
      simp [Nat.add_comm]

/-- C2: `sort!(S)` turns `S` into a permutation of its contents sorted by the
natural order, `sort!(S, cmp)` does the same for the order the three-way
comparator induces (assuming it is a total preorder, as `sort_unstable_by`
requires), and both return `()`. -/
theorem sort_inplace_correct {α : Type u} {β : Type v} [LinearOrder α]
    (v : List α) (cmp : β → β → Ordering) (w : List β)
    (htot : ∀ a b : β, cmpLE cmp a b ∨ cmpLE cmp b a)
    (htrans : ∀ a b c : β, cmpLE cmp a b → cmpLE cmp b c → cmpLE cmp a c) :
    ((sortBang v).1.Perm v ∧ (sortBang v).1.Sorted (fun a b => a ≤ b)
      ∧ (sortBang v).2 = ())
    ∧ ((sortByBang cmp w).1.Perm w ∧ (sortByBang cmp w).1.Sorted (cmpLE cmp)
      ∧ (sortByBang cmp w).2 = ()) := by
  haveI : IsTotal β (cmpLE cmp) := ⟨htot⟩
  haveI : IsTrans β (cmpLE cmp) := ⟨fun a b c => htrans a b c⟩
  exact ⟨⟨List.perm_insertionSort _ v, List.sorted_insertionSort _ v, rfl⟩,
    ⟨List.perm_insertionSort _ w, List.sorted_insertionSort _ w, rfl⟩⟩

/-- Witness for C2, at the test inputs: the natural-order mode on
`[2, 4, -1]` and the comparator mode on `[false, true]` with the reversing
comparator. -/
theorem sort_inplace_correct_witness :
    (((sortBang [(2 : Int), 4, -1]).1.Perm [(2 : Int), 4, -1]
      ∧ (sortBang [(2 : Int), 4, -1]).1.Sorted (fun a b => a ≤ b)
      ∧ (sortBang [(2 : Int), 4, -1]).2 = ())
    ∧ ((sortByBang (fun a b : Bool => compare b a) [false, true]).1.Perm [false, true]
      ∧ (sortByBang (fun a b : Bool => compare b a) [false, true]).1.Sorted
          (cmpLE fun a b : Bool => compare b a)
      ∧ (sortByBang (fun a b : Bool => compare b a) [false, true]).2 = ())) :=
  sort_inplace_correct [(2 : Int), 4, -1] (fun a b : Bool => compare b a)
    [false, true] (by decide) (by decide)

/-- C7: applying `sort!` twice gives the same sequence as applying it once,
in default mode and (for a total, transitive comparator order) in comparator
mode. -/
theorem sort_idempotent {α : Type u} {β : Type v} [LinearOrder α]
    (v : List α) (cmp : β → β → Ordering) (w : List β)
    (htot : ∀ a b : β, cmpLE cmp a b ∨ cmpLE cmp b a)
    (htrans : ∀ a b c : β, cmpLE cmp a b → cmpLE cmp b c → cmpLE cmp a c) :
    (sortBang (sortBang v).1).1 = (sortBang v).1
    ∧ (sortByBang cmp (sortByBang cmp w).1).1 = (sortByBang cmp w).1 := by
  haveI : IsTotal β (cmpLE cmp) := ⟨htot⟩
  haveI : IsTrans β (cmpLE cmp) := ⟨fun a b c => htrans a b c⟩
  exact ⟨List.Sorted.insertionSort_eq (List.sorted_insertionSort _ v),
    List.Sorted.insertionSort_eq (List.sorted_insertionSort _ w)⟩

/-- Witness for C7, at the same concrete inputs as the C2 witness. -/
theorem sort_idempotent_witness :
    (sortBang (sortBang [(2 : Int), 4, -1]).1).1 = (sortBang [(2 : Int), 4, -1]).1
    ∧ (sortByBang (fun a b : Bool => compare b a)
        (sortByBang (fun a b : Bool => compare b a) [false, true]).1).1
      = (sortByBang (fun a b : Bool => compare b a) [false, true]).1 :=
  sort_idempotent [(2 : Int), 4, -1] (fun a b : Bool => compare b a)
    [false, true] (by decide) (by decide)

/-- C1: on the allocation model, `sorted!(store[i])` returns a vector at a
fresh address (distinct from the source's), every previously allocated
vector — the source in particular — is byte-for-byte unchanged, and the
returned vector is a sorted permutation of the source. -/
theorem sorted_frame {α : Type u} [LinearOrder α]
    (store : List (List α)) (i : Nat) (hi : i < store.length) :
    (sortedOnStore store i).2 ≠ i
    ∧ (∀ j, j < store.length → ((sortedOnStore store i).1)[j]? = store[j]?)
    ∧ ((sortedOnStore store i).1)[(sortedOnStore store i).2]?
        = some (sortedBang (store.getD i []))
    ∧ (sortedBang (store.getD i [])).Perm (store.getD i [])
    ∧ (sortedBang (store.getD i [])).Sorted (fun a b => a ≤ b) := by
  refine ⟨ne_of_gt hi, fun j hj => List.getElem?_append_left hj,
    List.getElem?_concat_length store _,
    List.perm_insertionSort _ _, List.sorted_insertionSort _ _⟩

/-- Witness for C1, at the one-vector store holding the test input
`[4, 2, 3, -1, -14, 0, 8]`. -/
theorem sorted_frame_witness :
    (sortedOnStore [[(4 : Int), 2, 3, -1, -14, 0, 8]] 0).2 ≠ 0
    ∧ (∀ j, j < [[(4 : Int), 2, 3, -1, -14, 0, 8]].length →
        ((sortedOnStore [[(4 : Int), 2, 3, -1, -14, 0, 8]] 0).1)[j]?
          = [[(4 : Int), 2, 3, -1, -14, 0, 8]][j]?)
    ∧ ((sortedOnStore [[(4 : Int), 2, 3, -1, -14, 0, 8]] 0).1)[(sortedOnStore [[(4 : Int), 2, 3, -1, -14, 0, 8]] 0).2]?
        = some (sortedBang ([[(4 : Int), 2, 3, -1, -14, 0, 8]].getD 0 []))
    ∧ (sortedBang ([[(4 : Int), 2, 3, -1, -14, 0, 8]].getD 0 [])).Perm
        ([[(4 : Int), 2, 3, -1, -14, 0, 8]].getD 0 [])
    ∧ (sortedBang ([[(4 : Int), 2, 3, -1, -14, 0, 8]].getD 0 [])).Sorted
        (fun a b => a ≤ b) :=
  sorted_frame [[(4 : Int), 2, 3, -1, -14, 0, 8]] 0 (by decide)

/-- C4: the map `hashmap!` produces equals the map obtained by starting from
an empty map and inserting each pair in the order given, and on duplicate
keys the later pair's value wins (the lookup of any key is the value of the
last pair carrying it). -/
theorem hashmap_builds_by_insertion {K : Type u} {V : Type v} [DecidableEq K]
    (ps : List (K × V)) (k : K) :
    (hashmap ps).entries = insertList ps
    ∧ (hashmap ps).lookup k = lastWins ps k := by
  constructor
  · rw [hashmap, foldl_insert_entries]
    rfl
  · show lookupEntries (hashmap ps).entries k = lastWins ps k
    rw [hashmap, foldl_insert_entries]
    rw [show (HMap.with_capacity (count_args (ps.map Prod.fst)) : HMap K V).entries
        = [] from rfl]
    rw [lookupEntries_foldl ps [] k]
    rw [show lookupEntries ([] : List (K × V)) k = none from rfl, Option.or_none]

/-- C5: the set `hashset!` produces equals the set of the distinct elements
of the literal list: membership agrees with list membership and the stored
elements are duplicate-free. -/
theorem hashset_distinct_elements {T : Type u} [DecidableEq T]
    (l : List T) (x : T) :
    (x ∈ (hashset l).elems ↔ x ∈ l) ∧ (hashset l).elems.Nodup := by
  constructor
  · rw [hashset]
    rw [mem_foldl_insertHS l (HSet.with_capacity (count_args l)) x]
    simp [HSet.with_capacity]
  · exact nodup_foldl_insertHS l _ List.nodup_nil

/-- C6: for a non-empty literal of `n` pairs (elements), `hashmap!`
(`hashset!`) computes `n` via `count_args!`, reserves exactly that capacity,
and no reallocation happens while the `n` entries are inserted. -/
theorem builders_reserve_exact {K : Type u} {V : Type v} {T : Type w}
    [DecidableEq K] [DecidableEq T]
    (ps : List (K × V)) (l : List T) (_hps : ps ≠ []) (_hl : l ≠ []) :
    (hashmap ps).cap = count_args (ps.map Prod.fst)
    ∧ count_args (ps.map Prod.fst) = ps.length
    ∧ (hashmap ps).reallocs = 0
    ∧ (hashset l).cap = count_args l
    ∧ count_args l = l.length
    ∧ (hashset l).reallocs = 0 := by
  have hcount_m : count_args (ps.map Prod.fst) = ps.length := by
    rw [count_args_eq_length, List.length_map]
  have hcount_s : count_args l = l.length := count_args_eq_length l
  have hm := foldl_insert_no_realloc ps
    (HMap.with_capacity (count_args (ps.map Prod.fst)) : HMap K V)
    (by simp [HMap.with_capacity, hcount_m])
  have hs := foldl_insertHS_no_realloc l
    (HSet.with_capacity (count_args l) : HSet T)
    (by simp [HSet.with_capacity, hcount_s])
  exact ⟨hm.1, hcount_m, hm.2, hs.1, hcount_s, hs.2⟩

/-- Witness for C6, at a one-pair map literal and a one-element set
literal. -/
theorem builders_reserve_exact_witness :
    (hashmap [((1 : Nat), (2 : Nat))]).cap
        = count_args ([((1 : Nat), (2 : Nat))].map Prod.fst)
    ∧ count_args ([((1 : Nat), (2 : Nat))].map Prod.fst)
        = [((1 : Nat), (2 : Nat))].length
    ∧ (hashmap [((1 : Nat), (2 : Nat))]).reallocs = 0
    ∧ (hashset [true]).cap = count_args [true]
    ∧ count_args [true] = [true].length
    ∧ (hashset [true]).reallocs = 0 :=
  builders_reserve_exact [((1 : Nat), (2 : Nat))] [true] (by decide) (by decide)

/-- C10: the containers `hashmap!` and `hashset!` build hold at most as many
entries as the literal has arguments, with equality exactly when the keys
(elements) are pairwise distinct; the zero-argument arms build containers of
size `0`. -/
theorem builders_size_bound {K : Type u} {V : Type v} {T : Type w}
    [DecidableEq K] [DecidableEq T] (ps : List (K × V)) (l : List T) :
    (hashmap ps).entries.length ≤ ps.length
    ∧ ((hashmap ps).entries.length = ps.length ↔ (ps.map Prod.fst).Nodup)
    ∧ (hashset l).elems.length ≤ l.length
    ∧ ((hashset l).elems.length = l.length ↔ l.Nodup)
    ∧ (hashmapNil : HMap K V).entries.length = 0
    ∧ (hashsetNil : HSet T).elems.length = 0 := by
  have hment : (hashmap ps).entries
      = ps.foldl (fun e p => insertEntry e p.1 p.2) ([] : List (K × V)) := by
    rw [hashmap, foldl_insert_entries]
    rfl
  have hm := length_foldl_insertEntry ps ([] : List (K × V))
  have hs := length_foldl_insertHS l (HSet.with_capacity (count_args l) : HSet T)
  refine ⟨?_, ?_, ?_, ?_, rfl, rfl⟩
  · rw [hment]
    simpa using hm.1
  · rw [hment]
    simpa using hm.2
  · simpa [hashset, HSet.with_capacity] using hs.1
  · simpa [hashset, HSet.with_capacity] using hs.2

/-- C8 counterexample: the one-element input `[NaN]` contains an
incomparable value, yet `sorted_f64!` succeeds on it and returns the clone —
the comparator is never consulted on a singleton, so no failure is
propagated. -/
theorem sorted_f64_nan_singleton :
    sorted_f64 [F64.nan] = some [F64.nan] ∧ F64.nan ∈ [F64.nan] :=
  ⟨rfl, List.mem_singleton.mpr rfl⟩

/-- C8 (amended): on an input with no incomparable value `sorted_f64!`
returns the elements sorted in non-decreasing order, and on an input of at
least two elements containing an incomparable value it propagates the
comparator's failure instead of returning a reordering; inputs of fewer than
two elements are returned unchanged without consulting the comparator. -/
theorem sorted_f64_correct (l m : List F64) (hlen : 2 ≤ l.length)
    (hnan : F64.nan ∈ l) (hm : ∀ y ∈ m, y ≠ F64.nan) :
    sorted_f64 l = none
    ∧ sorted_f64 m = some (List.insertionSort F64.le m)
    ∧ (List.insertionSort F64.le m).Perm m
    ∧ (List.insertionSort F64.le m).Sorted F64.le :=
  ⟨insertionSortF_nan_none l hnan hlen,
   insertionSortF_eq_insertionSort m hm,
   List.perm_insertionSort F64.le m,
   List.sorted_insertionSort F64.le m⟩

/-- Witness for C8, at a two-element NaN-containing input and at the spec's
concrete scenario `[4.0, 2.0, 3.0, -1.0, -14.0, 0.0, 8.0]`. -/
theorem sorted_f64_correct_witness :
    sorted_f64 [F64.num 1, F64.nan] = none
    ∧ sorted_f64 [F64.num 4, F64.num 2, F64.num 3, F64.num (-1),
          F64.num (-14), F64.num 0, F64.num 8]
        = some (List.insertionSort F64.le [F64.num 4, F64.num 2, F64.num 3,
            F64.num (-1), F64.num (-14), F64.num 0, F64.num 8])
    ∧ (List.insertionSort F64.le [F64.num 4, F64.num 2, F64.num 3,
          F64.num (-1), F64.num (-14), F64.num 0, F64.num 8]).Perm
        [F64.num 4, F64.num 2, F64.num 3, F64.num (-1), F64.num (-14),
          F64.num 0, F64.num 8]
    ∧ (List.insertionSort F64.le [F64.num 4, F64.num 2, F64.num 3,
          F64.num (-1), F64.num (-14), F64.num 0, F64.num 8]).Sorted F64.le :=
  sorted_f64_correct [F64.num 1, F64.nan]
    [F64.num 4, F64.num 2, F64.num 3, F64.num (-1), F64.num (-14),
      F64.num 0, F64.num 8]
    (by decide) (by decide) (by decide)

/-- C9: `sorted_f64!` succeeds on the empty and on every one-element input,
returning the clone unchanged; this holds under an arbitrary fallible
comparator, even one that fails on every call, so the comparator is never
invoked and no failure can occur on such inputs. -/
theorem sorted_f64_small (x : F64) (le : F64 → F64 → Option Bool) :
    sorted_f64 [] = some []
    ∧ sorted_f64 [x] = some [x]
    ∧ insertionSortF le [] = some []
    ∧ insertionSortF le [x] = some [x] :=
  ⟨rfl, rfl, rfl, rfl⟩

end Colmac
